import Mathlib

set_option maxHeartbeats 1000000

/-!
Verification of `picostring.h`, a persistent rope (binary concatenation tree
over immutable buffer windows) with manual reference counting, iterative
flattening and iterative destruction.

The development has three parts:
  1. `Picostring`: a functional model of the node tree (`PNode`) and of the
     handle-level operations (`append`, `substr`, `at`, `str`), translated
     from the source; handles are `Option (PNode α)` with `none` the empty
     handle (a `NULL` root pointer).
  2. `Picostring.Rc`: the reference-count protocol of `Node` as a state
     machine over `Option Nat` (`none` = destroyed).
  3. `Picostring.Destroy`: a heap model (association list from addresses to
     nodes with reference counts) in which `LinkNode::destroy`, the iterative
     deferred-stack algorithm, is compared against fully recursive destruction.
-/

namespace Picostring

/-- A node of the rope.  `str s off len` models `StringNode` (an immutable
window of `len` units starting at `off` into the shared buffer `s`);
`link l r` models `LinkNode` (concatenation of two subtrees). -/
inductive PNode (α : Type) : Type
  | str (s : List α) (off len : Nat)
  | link (l r : PNode α)
deriving DecidableEq, Repr

namespace PNode

variable {α : Type}

/-- `Node::size()`: fixed at construction; a `StringNode` carries its window
length, a `LinkNode` the sum of its children's sizes. -/
def size : PNode α → Nat
  | .str _ _ len => len
  | .link l r => l.size + r.size

/-- The denotation of a node: the window of each leaf, concatenated left to
right.  This is what fully recursive flattening produces. -/
def content : PNode α → List α
  | .str s off len => (s.drop off).take len
  | .link l r => l.content ++ r.content

/-- Structural well-formedness: every leaf window fits inside its buffer.
All nodes the C++ code constructs satisfy this. -/
def wfb : PNode α → Bool
  | .str s off len => decide (off + len ≤ s.length)
  | .link l r => l.wfb && r.wfb



/-- Number of nodes in the tree, the fuel bound for the iterative flatten. -/
def nodeCount : PNode α → Nat
  | .str _ _ _ => 1
  | .link l r => l.nodeCount + r.nodeCount + 1

/-- `picostring::at`, translated from the source: navigate with `nodeAt`
until a `StringNode` is reached, then return `str()[pos]` — note the source
indexes the raw buffer `s_`, not the window at `offset_`. -/
def atCode : PNode α → Nat → Option α
  | .str s _ _, pos => s[pos]?
  | .link l r, pos => if pos < l.size then l.atCode pos else r.atCode (pos - l.size)

end PNode

/-- Sum of node counts of a work list. -/
def countSum {α : Type} : List (PNode α) → Nat
  | [] => 0
  | t :: ts => t.nodeCount + countSum ts

/-- Concatenated contents of a work list (left-to-right). -/
def contentsOf {α : Type} : List (PNode α) → List α
  | [] => []
  | t :: ts => t.content ++ contentsOf ts

/-- The loop of `LinkNode::flatten(void)`, translated from the source: pop
the top of the explicit LIFO work list; a `StringNode` copies its window at
the output cursor (modelled by appending to `out`), a `LinkNode` pushes
`right_` then `left_` (so `left_` pops first).  `fuel` bounds the number of
iterations; `none` marks fuel exhaustion (shown unreachable below). -/
def flattenLoop {α : Type} : Nat → List (PNode α) → List α → Option (List α)
  | _, [], out => some out
  | 0, _ :: _, _ => none
  | fuel + 1, .str s off len :: rest, out =>
      flattenLoop fuel rest (out ++ (s.drop off).take len)
  | fuel + 1, .link l r :: rest, out =>
      flattenLoop fuel (l :: r :: rest) out

/-- `LinkNode::flatten(void)`, translated from the source: allocate a buffer
of `size` units, seed the work list by pushing `right_` then `left_`, run the
loop, and wrap the buffer in a fresh `StringNode` with offset 0.  The `getD`
default is unreachable (`flattenLoop_eq`). -/
def linkFlatten {α : Type} (l r : PNode α) : PNode α :=
  .str ((flattenLoop (l.nodeCount + r.nodeCount) [l, r] []).getD []) 0 (l.size + r.size)

/-- `Node::flatten()` at a single node: `StringNode::flatten` returns itself
when its window spans the whole buffer, otherwise copies the window into a
fresh full-span `StringNode`; `LinkNode::flatten` runs the iterative loop. -/
def nodeFlatten {α : Type} : PNode α → PNode α
  | .str s off len =>
      if off = 0 ∧ s.length = len then .str s off len
      else .str ((s.drop off).take len) 0 len
  | .link l r => linkFlatten l r

/-- `StringNode::str()`: the underlying buffer of a leaf (a `LinkNode` is
never the receiver in the source; that case is given a junk value). -/
def leafBuf {α : Type} : PNode α → List α
  | .str s _ _ => s
  | .link _ _ => []

/-- The naive recursive flatten the spec compares against: one leaf holding
the recursively concatenated content, at offset 0. -/
def naiveFlatten {α : Type} (t : PNode α) : PNode α :=
  .str t.content 0 t.size

/-- A handle (`picostring`): an optional root node; `none` is the `NULL`
root, the canonical empty string. -/
abbrev Handle (α : Type) := Option (PNode α)

/-- `picostring::size()`. -/
def hsize {α : Type} : Handle α → Nat
  | none => 0
  | some t => t.size

/-- The materialized content of a handle. -/
def hcontent {α : Type} : Handle α → List α
  | none => []
  | some t => t.content

/-- Handle well-formedness: the root, if any, is well-formed. -/
def hwf {α : Type} : Handle α → Bool
  | none => true
  | some t => t.wfb

/-- `picostring::append(const picostring&)`, translated from the source:
an empty operand returns the other operand itself; otherwise a fresh
`LinkNode` over the two retained roots. -/
def appendCode {α : Type} (a b : Handle α) : Handle α :=
  match a with
  | none => b
  | some x =>
    match b with
    | none => a
    | some y => some (.link x y)

/-- `picostring::substr(pos, length)`, translated from the source: length 0
returns the empty handle; otherwise a fresh `StringNode` windowing the
buffer of `_flatten()->str()` at `(pos, length)`.  The `none` root with
`length ≠ 0` is excluded by the `assert` precondition `pos + length <= size`
and is mapped to the empty handle here. -/
def substrCode {α : Type} (h : Handle α) (pos len : Nat) : Handle α :=
  if len = 0 then none
  else
    match h with
    | none => none
    | some t => some (.str (leafBuf (nodeFlatten t)) pos len)

/-- `picostring::str()` including the `_flatten` caching side effect: the
result is the pair (new root stored back into the handle, returned buffer).
An empty handle returns the static empty string and is left unchanged. -/
def strCallCode {α : Type} (h : Handle α) : Handle α × List α :=
  match h with
  | none => (none, [])
  | some t => (some (nodeFlatten t), leafBuf (nodeFlatten t))

/-- `picostring::append(const char_type* s, size_type length)`, translated
from the source.  The outer `Option` marks definedness of the translation:
the branch taken when both the handle and the raw buffer are non-empty reads
`return picostirng(s->append(s, length));` in the source — a misspelled type
name, calling `append` through the raw `char_type*` parameter `s` (which
shadows the member `s_`) — and is ill-formed C++; it is modelled as `none`. -/
def appendRawCode {α : Type} (h : Handle α) (s : List α) : Option (Handle α) :=
  if s.length = 0 then some h
  else
    match h with
    | none => some (some (.str s 0 s.length))
    | some _ => none

/-- `picostring(const picostring& s) : s_(s.s_->retain())`, translated from
the source: the root pointer is dereferenced unconditionally, so an empty
source (a `NULL` root) is a null-pointer dereference, modelled as `none`. -/
def copyCtorCode {α : Type} (h : Handle α) : Option (Handle α) :=
  match h with
  | none => none
  | some t => some (some t)

end Picostring

namespace Picostring.Rc

/-- An operation on a node's reference count. -/
inductive RcOp : Type
  | retain
  | release
deriving DecidableEq, Repr

/-- One step of the ownership protocol of `Node`, translated from the
source: the state is `some c` with `c` the stored `refcnt_` (a live node;
`refcnt_` starts at 0, representing exactly one owner, so `c` counts the
additional owners), or `none` once destroyed.  `retain()` increments;
`release()` destroys exactly when the count is at its initial value 0
(`if (refcnt_-- == 0) destroy()`), otherwise only decrements.  Operations
on a destroyed node are use-after-free in the source; `none` absorbs. -/
def rcStep : Option Nat → RcOp → Option Nat
  | none, _ => none
  | some c, .retain => some (c + 1)
  | some c, .release =>
      if c = 0 then none else some (c - 1)

/-- Run a sequence of retains and releases against a freshly constructed
node (`refcnt_ = 0`, one implicit owner). -/
def rcRun (ops : List RcOp) : Option Nat :=
  ops.foldl rcStep (some 0)

/-- Count of `retain` operations. -/
def retains : List RcOp → Nat
  | [] => 0
  | .retain :: l => retains l + 1
  | .release :: l => retains l

/-- Count of `release` operations. -/
def releases : List RcOp → Nat
  | [] => 0
  | .retain :: l => releases l
  | .release :: l => releases l + 1

end Picostring.Rc

namespace Picostring.Destroy

/-- A heap node: a `StringNode` (a leaf, owning no child nodes) or a
`LinkNode` holding the addresses of its two owned children. -/
inductive HNode : Type
  | leaf
  | link (l r : Nat)
deriving DecidableEq, Repr

/-- The heap: an association list mapping each live node's address to its
shape and its stored reference count `refcnt_` (biased: 0 means exactly one
owner). -/
abbrev Heap := List (Nat × HNode × Nat)

/-- Look up the entry at address `a`. -/
def hlookup : Heap → Nat → Option (HNode × Nat)
  | [], _ => none
  | (b, nd, c) :: t, a => if a = b then some (nd, c) else hlookup t a

/-- Decrement the reference count stored at address `a` (the `refcnt_--` of
a release that leaves other owners). -/
def hdecref : Heap → Nat → Heap
  | [], _ => []
  | (b, nd, c) :: t, a =>
      if a = b then (b, nd, c - 1) :: t else (b, nd, c) :: hdecref t a

/-- Remove the entry at address `a` (the `delete` of a node). -/
def herase : Heap → Nat → Heap
  | [], _ => []
  | (b, nd, c) :: t, a => if a = b then t else (b, nd, c) :: herase t a

/-- Every link's children live at strictly smaller addresses than the link
itself: in the source a `LinkNode` is always constructed after its children
exist, so allocation order gives such a ranking. -/
def downwardB (h : Heap) : Bool :=
  h.all fun e =>
    match e.2.1 with
    | .leaf => true
    | .link l r => decide (l < e.1) && decide (r < e.1)

/-- `Node::_releaseMayDefer`, translated from the source: if the count is at
the sole-owner value 0, a `LinkNode` is deferred (result flag `true`; its
entry stays in the heap until the deferred stack processes it — the
post-decremented, wrapped `refcnt_` is never read again in a valid
execution), and a `StringNode` is destroyed at once; otherwise the count is
only decremented.  Result: (heap, freed addresses in order, deferred?).
Releasing a dangling address is use-after-free in the source; it is
modelled as a no-op. -/
def relMayDefer (h : Heap) (x : Nat) : Heap × List Nat × Bool :=
  match hlookup h x with
  | none => (h, [], false)
  | some (nd, c) =>
    if c = 0 then
      match nd with
      | .link _ _ => (h, [], true)
      | .leaf => (herase h x, [x], false)
    else (hdecref h x, [], false)

/-- `LinkNode::destroy`, translated from the source: the explicit deferred
stack (list head = `deferred.back()`, the top).  Each iteration reads the
top link's children, runs `_releaseMayDefer` on `left_` (replacing the top
with it when deferred), then on `right_` (when deferred: pushed above a
deferred `left_`, else replacing the top), pops the top when neither child
deferred, and finally `delete`s the node inspected this iteration.  Returns
the final heap and the freed addresses in deletion order.  `none` models a
stack entry that is not a live `LinkNode` (use-after-free in the source) or
fuel exhaustion; `fuel = length of the heap` always suffices since every
iteration deletes one link. -/
def destroyI : Nat → Heap → List Nat → Option (Heap × List Nat)
  | _, h, [] => some (h, [])
  | 0, _, _ :: _ => none
  | fuel + 1, h, a :: rest =>
    match hlookup h a with
    | some (.link l r, _) =>
      let s1 := relMayDefer h l
      let s2 := relMayDefer s1.1 r
      let stack1 :=
        if s1.2.2 then (if s2.2.2 then r :: l :: rest else l :: rest)
        else (if s2.2.2 then r :: rest else rest)
      (destroyI fuel (herase s2.1 a) stack1).map fun q =>
        (q.1, s1.2.1 ++ s2.2.1 ++ a :: q.2)
    | _ => none

/-- Fully recursive destruction, the baseline the spec compares against
(release each child recursively, then free the node).  This definition
follows the spec's description of "fully recursive destruction"; the source
only implements the iterative variant above.  `fuel` makes the recursion
well-founded; `none` is fuel exhaustion or a release of a dangling
address. -/
def releaseRec : Nat → Heap → Nat → Option (Heap × List Nat)
  | 0, _, _ => none
  | fuel + 1, h, a =>
    match hlookup h a with
    | none => none
    | some (nd, c) =>
      if c = 0 then
        match nd with
        | .leaf => some (herase h a, [a])
        | .link l r =>
          match releaseRec fuel h l with
          | none => none
          | some (h1, f1) =>
            match releaseRec fuel h1 r with
            | none => none
            | some (h2, f2) => some (herase h2 a, f1 ++ f2 ++ [a])
      else some (hdecref h a, [])

/-- One release event on the heap: the node at `x` either keeps other
owners (decrement only), or is a sole-owned leaf (freed at once), or a
sole-owned link (freed; its two children become pending releases). -/
inductive Step : Heap → Nat → Heap → Multiset Nat → Multiset Nat → Prop
  | decref {h : Heap} {x : Nat} {nd : HNode} {c : Nat} :
      hlookup h x = some (nd, c + 1) → Step h x (hdecref h x) 0 0
  | leaf {h : Heap} {x : Nat} :
      hlookup h x = some (.leaf, 0) → Step h x (herase h x) 0 {x}
  | link {h : Heap} {x l r : Nat} :
      hlookup h x = some (.link l r, 0) → Step h x (herase h x) {l, r} {x}

/-- Discharging a multiset of pending releases to completion, one `Step` at
a time in any order, yielding the final heap and the multiset of freed
addresses. -/
inductive Exec : Heap → Multiset Nat → Heap → Multiset Nat → Prop
  | done {h : Heap} : Exec h 0 h 0
  | step {h : Heap} {x : Nat} {p : Multiset Nat} {h₂ : Heap}
      {ext fr : Multiset Nat} {h₃ : Heap} {f : Multiset Nat} :
      x ∈ p → Step h x h₂ ext fr → Exec h₂ (p.erase x + ext) h₃ f →
      Exec h p h₃ (fr + f)

/-- The ordering property asserted by "freeing happens from the leaves
upward": whenever a link and one of its children are both freed, the child
appears earlier in the deletion order. -/
def leavesUpwardB (h : Heap) (freed : List Nat) : Bool :=
  h.all fun e =>
    match e.2.1 with
    | .leaf => true
    | .link l r =>
        !(decide (e.1 ∈ freed)) ||
          ((!(decide (l ∈ freed)) || decide (freed.indexOf l < freed.indexOf e.1)) &&
           (!(decide (r ∈ freed)) || decide (freed.indexOf r < freed.indexOf e.1)))

/-- A concrete heap for the ordering counterexample: `A = link(L, R)` at
address 4 with `L = link(L1, L2)` at 2 (sole-owned), `R` a leaf at 3, and
leaves `L1, L2` at 0 and 1; every node sole-owned. -/
def cHeap : Heap :=
  [(4, HNode.link 2 3, 0), (3, HNode.leaf, 0), (2, HNode.link 0 1, 0),
   (1, HNode.leaf, 0), (0, HNode.leaf, 0)]

end Picostring.Destroy

/-! ### Helper theorems -/

namespace Picostring.PNode

variable {α : Type}

/-- Under well-formedness the denoted content has exactly `size` units. -/
theorem content_length (t : PNode α) (h : t.wfb = true) :
    t.content.length = t.size := by
  induction t with
  | str s off len =>
    simp only [wfb, decide_eq_true_eq] at h
    simp only [content, size, List.length_take, List.length_drop]
    omega
  | link l r ihl ihr =>
    simp only [wfb, Bool.and_eq_true] at h
    simp only [content, size, List.length_append, ihl h.1, ihr h.2]

end Picostring.PNode

namespace Picostring

/-- The iterative loop always terminates within `countSum pending` steps and
copies exactly the concatenated leaf windows, in left-to-right order. -/
theorem flattenLoop_eq {α : Type} (fuel : Nat) :
    ∀ (pending : List (PNode α)) (out : List α), countSum pending ≤ fuel →
      flattenLoop fuel pending out = some (out ++ contentsOf pending) := by
  induction fuel with
  | zero =>
    intro pending out hle
    cases pending with
    | nil => simp [flattenLoop, contentsOf]
    | cons t ts =>
      exfalso
      cases t <;> simp [countSum, PNode.nodeCount] at hle
  | succ fuel ih =>
    intro pending out hle
    cases pending with
    | nil => simp [flattenLoop, contentsOf]
    | cons t ts =>
      cases t with
      | str s off len =>
        rw [flattenLoop, ih ts (out ++ (s.drop off).take len) (by
          simp [countSum, PNode.nodeCount] at hle; omega)]
        simp [contentsOf, PNode.content]
      | link l r =>
        rw [flattenLoop, ih (l :: r :: ts) out (by
          simp [countSum, PNode.nodeCount] at hle ⊢; omega)]
        simp [contentsOf, PNode.content]

end Picostring

namespace Picostring

theorem linkFlatten_eq {α : Type} (l r : PNode α) :
    linkFlatten l r = .str (l.content ++ r.content) 0 (l.size + r.size) := by
  rw [linkFlatten, flattenLoop_eq (l.nodeCount + r.nodeCount) [l, r] []
    (by simp [countSum])]
  simp [contentsOf]

/-- Flattening a node yields a leaf whose buffer is exactly the content. -/
theorem leafBuf_nodeFlatten {α : Type} (t : PNode α) :
    leafBuf (nodeFlatten t) = t.content := by
  cases t with
  | str s off len =>
    by_cases h : off = 0 ∧ s.length = len
    · obtain ⟨h1, h2⟩ := h
      subst h1 h2
      simp [nodeFlatten, leafBuf, PNode.content]
    · simp [nodeFlatten, h, leafBuf, PNode.content]
  | link l r =>
    show leafBuf (linkFlatten l r) = _
    rw [linkFlatten_eq]
    simp [leafBuf, PNode.content]

theorem nodeFlatten_size {α : Type} (t : PNode α) :
    (nodeFlatten t).size = t.size := by
  cases t with
  | str s off len =>
    by_cases h : off = 0 ∧ s.length = len <;> simp [nodeFlatten, h, PNode.size]
  | link l r =>
    show (linkFlatten l r).size = _
    rw [linkFlatten_eq]
    simp [PNode.size]

end Picostring

namespace Picostring

/-- Flattening produces the same node as the naive recursive flatten. -/
theorem nodeFlatten_eq_naive {α : Type} (t : PNode α) :
    nodeFlatten t = naiveFlatten t := by
  cases t with
  | str s off len =>
    by_cases h : off = 0 ∧ s.length = len
    · obtain ⟨h1, h2⟩ := h
      subst h1 h2
      simp [nodeFlatten, naiveFlatten, PNode.content, PNode.size]
    · simp [nodeFlatten, h, naiveFlatten, PNode.content, PNode.size]
  | link l r =>
    show linkFlatten l r = _
    rw [linkFlatten_eq]
    simp [naiveFlatten, PNode.content, PNode.size]

/-- The flattened node is well-formed whenever the input is. -/
theorem wfb_nodeFlatten {α : Type} (t : PNode α) (h : t.wfb = true) :
    (nodeFlatten t).wfb = true := by
  rw [nodeFlatten_eq_naive]
  simp [naiveFlatten, PNode.wfb, PNode.content_length t h]

/-- Flattening an already flattened node returns it unchanged (the
`offset_ == 0 && s_.size() == size()` fast path of `StringNode::flatten`). -/
theorem nodeFlatten_idem {α : Type} (t : PNode α) (h : t.wfb = true) :
    nodeFlatten (nodeFlatten t) = nodeFlatten t := by
  rw [nodeFlatten_eq_naive t]
  show nodeFlatten (.str t.content 0 t.size) = _
  simp [nodeFlatten, PNode.content_length t h, naiveFlatten]

end Picostring

namespace Picostring.Rc

theorem rcStep_fold_none (ops : List RcOp) :
    ops.foldl rcStep none = none := by
  induction ops with
  | nil => rfl
  | cons op ops ih => simpa [rcStep] using ih

/-- Destruction happens exactly when some release arrives while the count
is at the one-owner state. -/
theorem rcFold_none_iff (ops : List RcOp) : ∀ k : Nat,
    ops.foldl rcStep (some k) = none ↔
      ∃ p q, ops = p ++ RcOp.release :: q ∧ p.foldl rcStep (some k) = some 0 := by
  induction ops with
  | nil =>
    intro k
    constructor
    · intro h
      simp [List.foldl] at h
    · rintro ⟨p, q, hpq, -⟩
      exact absurd hpq (by simp)
  | cons op ops ih =>
    intro k
    cases op with
    | retain =>
      rw [List.foldl_cons]
      show ops.foldl rcStep (some (k + 1)) = none ↔ _
      rw [ih (k + 1)]
      constructor
      · rintro ⟨p, q, hpq, hp⟩
        exact ⟨RcOp.retain :: p, q, by simp [hpq], by simpa [rcStep] using hp⟩
      · rintro ⟨p, q, hpq, hp⟩
        cases p with
        | nil => simp at hpq
        | cons op₀ p =>
          simp only [List.cons_append, List.cons.injEq] at hpq
          obtain ⟨hop, htail⟩ := hpq
          subst hop
          exact ⟨p, q, htail, by simpa [rcStep] using hp⟩
    | release =>
      rw [List.foldl_cons]
      by_cases hk : k = 0
      · subst hk
        have hstep : rcStep (some 0) RcOp.release = none := by simp [rcStep]
        rw [hstep, rcStep_fold_none]
        constructor
        · intro _
          exact ⟨[], ops, rfl, rfl⟩
        · intro _
          rfl
      · have hstep : rcStep (some k) RcOp.release = some (k - 1) := by
          simp [rcStep, hk]
        rw [hstep, ih (k - 1)]
        constructor
        · rintro ⟨p, q, hpq, hp⟩
          exact ⟨RcOp.release :: p, q, by simp [hpq], by simp [rcStep, hk, hp]⟩
        · rintro ⟨p, q, hpq, hp⟩
          cases p with
          | nil =>
            simp only [List.foldl] at hp
            exact absurd (Option.some.inj hp) hk
          | cons op₀ p =>
            simp only [List.cons_append, List.cons.injEq] at hpq
            obtain ⟨hop, htail⟩ := hpq
            subst hop
            exact ⟨p, q, htail, by simpa [rcStep, hk] using hp⟩

/-- While alive, the count equals retains minus releases (offset by the
start), and every prefix keeps releases within retains. -/
theorem rcFold_some_iff (ops : List RcOp) : ∀ k c : Nat,
    ops.foldl rcStep (some k) = some c ↔
      (∀ n, releases (ops.take n) ≤ k + retains (ops.take n)) ∧
        c + releases ops = k + retains ops := by
  induction ops with
  | nil =>
    intro k c
    simp only [List.foldl, List.take_nil, Option.some.injEq]
    constructor
    · intro h
      subst h
      exact ⟨fun _ => by simp [releases, retains], by simp [releases, retains]⟩
    · intro ⟨_, h⟩
      simp [releases, retains] at h
      omega
  | cons op ops ih =>
    intro k c
    cases op with
    | retain =>
      rw [List.foldl_cons]
      show ops.foldl rcStep (some (k + 1)) = some c ↔ _
      rw [ih (k + 1) c]
      constructor
      · rintro ⟨hpre, hcnt⟩
        refine ⟨fun n => ?_, by simp [releases, retains]; omega⟩
        cases n with
        | zero => simp [releases, retains]
        | succ n =>
          have := hpre n
          simp only [List.take_succ_cons, releases, retains] at *
          omega
      · rintro ⟨hpre, hcnt⟩
        refine ⟨fun n => ?_, by simp [releases, retains] at hcnt; omega⟩
        have := hpre (n + 1)
        simp only [List.take_succ_cons, releases, retains] at this
        omega
    | release =>
      rw [List.foldl_cons]
      by_cases hk : k = 0
      · subst hk
        have hstep : rcStep (some 0) RcOp.release = none := by simp [rcStep]
        rw [hstep, rcStep_fold_none]
        constructor
        · intro h
          exact absurd h (by simp)
        · rintro ⟨hpre, -⟩
          have := hpre 1
          simp [releases, retains] at this
      · have hstep : rcStep (some k) RcOp.release = some (k - 1) := by
          simp [rcStep, hk]
        rw [hstep, ih (k - 1) c]
        constructor
        · rintro ⟨hpre, hcnt⟩
          refine ⟨fun n => ?_, by simp [releases, retains]; omega⟩
          cases n with
          | zero => simp [releases, retains]
          | succ n =>
            have := hpre n
            simp only [List.take_succ_cons, releases, retains] at *
            omega
        · rintro ⟨hpre, hcnt⟩
          refine ⟨fun n => ?_, by simp [releases, retains] at hcnt; omega⟩
          have := hpre (n + 1)
          simp only [List.take_succ_cons, releases, retains] at this
          omega

end Picostring.Rc

namespace Picostring.Destroy

/-- Addresses in the heap are unique. -/
abbrev KeysNodup (h : Heap) : Prop := (h.map Prod.fst).Nodup

theorem hlookup_hdecref_ne {h : Heap} {x a : Nat} (hne : a ≠ x) :
    hlookup (hdecref h x) a = hlookup h a := by
  induction h with
  | nil => rfl
  | cons e t ih =>
    obtain ⟨b, nd, c⟩ := e
    by_cases hxb : x = b
    · have hab : ¬a = b := fun hh => hne (hh.trans hxb.symm)
      simp [hdecref, hlookup, hxb, hab]
    · by_cases hab : a = b
      · simp [hdecref, hlookup, hxb, hab]
      · simp [hdecref, hlookup, hxb, hab, ih]

theorem hlookup_herase_ne {h : Heap} {x a : Nat} (hne : a ≠ x) :
    hlookup (herase h x) a = hlookup h a := by
  induction h with
  | nil => rfl
  | cons e t ih =>
    obtain ⟨b, nd, c⟩ := e
    by_cases hxb : x = b
    · have hab : ¬a = b := fun hh => hne (hh.trans hxb.symm)
      simp [herase, hlookup, hxb, hab]
    · by_cases hab : a = b
      · simp [herase, hlookup, hxb, hab]
      · simp [herase, hlookup, hxb, hab, ih]

theorem hdecref_hdecref_comm {h : Heap} {x y : Nat} (hne : x ≠ y) :
    hdecref (hdecref h y) x = hdecref (hdecref h x) y := by
  induction h with
  | nil => rfl
  | cons e t ih =>
    obtain ⟨b, nd, c⟩ := e
    by_cases hyb : y = b
    · have hxb : ¬x = b := fun hh => hne (hh.trans hyb.symm)
      simp [hdecref, hyb, hxb]
    · by_cases hxb : x = b
      · simp [hdecref, hyb, hxb]
      · simp [hdecref, hyb, hxb, ih]

theorem herase_hdecref_comm {h : Heap} {x y : Nat} (hne : x ≠ y) :
    herase (hdecref h y) x = hdecref (herase h x) y := by
  induction h with
  | nil => rfl
  | cons e t ih =>
    obtain ⟨b, nd, c⟩ := e
    by_cases hyb : y = b
    · have hxb : ¬x = b := fun hh => hne (hh.trans hyb.symm)
      simp [hdecref, herase, hyb, hxb]
    · by_cases hxb : x = b
      · simp [hdecref, herase, hyb, hxb]
      · simp [hdecref, herase, hyb, hxb, ih]

theorem herase_herase_comm {h : Heap} {x y : Nat} (hne : x ≠ y) :
    herase (herase h y) x = herase (herase h x) y := by
  induction h with
  | nil => rfl
  | cons e t ih =>
    obtain ⟨b, nd, c⟩ := e
    by_cases hyb : y = b
    · have hxb : ¬x = b := fun hh => hne (hh.trans hyb.symm)
      simp [herase, hyb, hxb]
    · by_cases hxb : x = b
      · simp [herase, hyb, hxb]
      · simp [herase, hyb, hxb, ih]

theorem length_hdecref (h : Heap) (x : Nat) : (hdecref h x).length = h.length := by
  induction h with
  | nil => rfl
  | cons e t ih =>
    obtain ⟨b, nd, c⟩ := e
    by_cases hxb : x = b <;> simp [hdecref, hxb, ih]

theorem length_herase_le (h : Heap) (x : Nat) : (herase h x).length ≤ h.length := by
  induction h with
  | nil => simp [herase]
  | cons e t ih =>
    obtain ⟨b, nd, c⟩ := e
    by_cases hxb : x = b
    · simp [herase, hxb]
    · simp only [herase, if_neg hxb, List.length_cons]
      omega

theorem length_herase_of_mem {h : Heap} {x : Nat} {s : HNode × Nat}
    (hl : hlookup h x = some s) : (herase h x).length + 1 = h.length := by
  induction h with
  | nil => simp [hlookup] at hl
  | cons e t ih =>
    obtain ⟨b, nd, c⟩ := e
    by_cases hxb : x = b
    · simp [herase, hxb]
    · simp only [hlookup, if_neg hxb] at hl
      simp [herase, hxb, ih hl]

theorem mem_of_hlookup {h : Heap} {a : Nat} {nd : HNode} {c : Nat}
    (hl : hlookup h a = some (nd, c)) : (a, nd, c) ∈ h := by
  induction h with
  | nil => simp [hlookup] at hl
  | cons e t ih =>
    obtain ⟨b, nd', c'⟩ := e
    by_cases hab : a = b
    · have : (nd', c') = (nd, c) := by
        have := hl
        rw [hlookup, if_pos hab] at this
        exact Option.some.inj this
      have h1 : nd' = nd := congrArg Prod.fst this
      have h2 : c' = c := congrArg Prod.snd this
      subst h1 h2 hab
      exact List.mem_cons_self _ _
    · simp only [hlookup, if_neg hab] at hl
      exact List.mem_cons_of_mem _ (ih hl)

theorem mem_herase {h : Heap} {x : Nat} {e : Nat × HNode × Nat}
    (he : e ∈ herase h x) : e ∈ h := by
  induction h with
  | nil => simp [herase] at he
  | cons e₀ t ih =>
    obtain ⟨b, nd, c⟩ := e₀
    by_cases hxb : x = b
    · simp only [herase, if_pos hxb] at he
      exact List.mem_cons_of_mem _ he
    · simp only [herase, if_neg hxb] at he
      rcases List.mem_cons.1 he with h1 | h1
      · exact h1 ▸ List.mem_cons_self _ _
      · exact List.mem_cons_of_mem _ (ih h1)

theorem mem_hdecref {h : Heap} {x : Nat} {e : Nat × HNode × Nat}
    (he : e ∈ hdecref h x) : ∃ c₀, (e.1, e.2.1, c₀) ∈ h := by
  induction h with
  | nil => simp [hdecref] at he
  | cons e₀ t ih =>
    obtain ⟨b, nd, c⟩ := e₀
    by_cases hxb : x = b
    · simp only [hdecref, if_pos hxb] at he
      rcases List.mem_cons.1 he with h1 | h1
      · exact ⟨c, by simp [h1]⟩
      · exact ⟨e.2.2, by simp [h1]⟩
    · simp only [hdecref, if_neg hxb] at he
      rcases List.mem_cons.1 he with h1 | h1
      · exact ⟨c, by simp [h1]⟩
      · obtain ⟨c₀, hm⟩ := ih h1
        exact ⟨c₀, List.mem_cons_of_mem _ hm⟩

theorem downward_lt {h : Heap} {a : Nat} {l r c : Nat}
    (hd : downwardB h = true) (hl : hlookup h a = some (HNode.link l r, c)) :
    l < a ∧ r < a := by
  have hm := mem_of_hlookup hl
  rw [downwardB, List.all_eq_true] at hd
  have := hd _ hm
  simpa using this

theorem downwardB_hdecref {h : Heap} (hd : downwardB h = true) (x : Nat) :
    downwardB (hdecref h x) = true := by
  rw [downwardB, List.all_eq_true] at hd ⊢
  intro e he
  obtain ⟨c₀, hm⟩ := mem_hdecref he
  simpa using hd _ hm

theorem downwardB_herase {h : Heap} (hd : downwardB h = true) (x : Nat) :
    downwardB (herase h x) = true := by
  rw [downwardB, List.all_eq_true] at hd ⊢
  intro e he
  exact hd _ (mem_herase he)

end Picostring.Destroy

namespace Picostring.Destroy

theorem hlookup_eq_none_of_not_mem_keys {h : Heap} {a : Nat}
    (ha : a ∉ h.map Prod.fst) : hlookup h a = none := by
  induction h with
  | nil => rfl
  | cons e t ih =>
    obtain ⟨b, nd, c⟩ := e
    simp only [List.map_cons, List.mem_cons] at ha
    push_neg at ha
    simp only [hlookup, if_neg ha.1]
    exact ih ha.2

theorem keys_hdecref (h : Heap) (x : Nat) :
    (hdecref h x).map Prod.fst = h.map Prod.fst := by
  induction h with
  | nil => rfl
  | cons e t ih =>
    obtain ⟨b, nd, c⟩ := e
    by_cases hxb : x = b <;> simp [hdecref, hxb, ih]

theorem keysNodup_hdecref {h : Heap} (hn : KeysNodup h) (x : Nat) :
    KeysNodup (hdecref h x) := by
  rw [KeysNodup, keys_hdecref]
  exact hn

theorem keysNodup_herase {h : Heap} (hn : KeysNodup h) (x : Nat) :
    KeysNodup (herase h x) := by
  induction h with
  | nil => exact hn
  | cons e t ih =>
    obtain ⟨b, nd, c⟩ := e
    rw [KeysNodup, List.map_cons, List.nodup_cons] at hn
    by_cases hxb : x = b
    · rw [KeysNodup]
      simp only [herase, if_pos hxb]
      exact hn.2
    · rw [KeysNodup]
      simp only [herase, if_neg hxb, List.map_cons, List.nodup_cons]
      constructor
      · intro hmem
        apply hn.1
        obtain ⟨e', he', heq⟩ := List.mem_map.1 hmem
        exact List.mem_map.2 ⟨e', mem_herase he', heq⟩
      · exact ih hn.2

theorem hlookup_herase_self {h : Heap} (hn : KeysNodup h) (x : Nat) :
    hlookup (herase h x) x = none := by
  induction h with
  | nil => rfl
  | cons e t ih =>
    obtain ⟨b, nd, c⟩ := e
    rw [KeysNodup, List.map_cons, List.nodup_cons] at hn
    by_cases hxb : x = b
    · simp only [herase, if_pos hxb]
      subst hxb
      exact hlookup_eq_none_of_not_mem_keys hn.1
    · simp only [herase, if_neg hxb, hlookup, if_neg hxb]
      exact ih hn.2

theorem step_lookup_ne {h h' : Heap} {x : Nat} {ext fr : Multiset Nat}
    (s : Step h x h' ext fr) {a : Nat} (hne : a ≠ x) :
    hlookup h' a = hlookup h a := by
  cases s with
  | decref hl => exact hlookup_hdecref_ne hne
  | leaf hl => exact hlookup_herase_ne hne
  | link hl => exact hlookup_herase_ne hne

theorem step_downward {h h' : Heap} {x : Nat} {ext fr : Multiset Nat}
    (s : Step h x h' ext fr) (hd : downwardB h = true) : downwardB h' = true := by
  cases s with
  | decref hl => exact downwardB_hdecref hd x
  | leaf hl => exact downwardB_herase hd x
  | link hl => exact downwardB_herase hd x

theorem step_keysNodup {h h' : Heap} {x : Nat} {ext fr : Multiset Nat}
    (s : Step h x h' ext fr) (hn : KeysNodup h) : KeysNodup h' := by
  cases s with
  | decref hl => exact keysNodup_hdecref hn x
  | leaf hl => exact keysNodup_herase hn x
  | link hl => exact keysNodup_herase hn x

theorem step_length_le {h h' : Heap} {x : Nat} {ext fr : Multiset Nat}
    (s : Step h x h' ext fr) : h'.length ≤ h.length := by
  cases s with
  | decref hl => exact (length_hdecref h x).le
  | leaf hl => exact length_herase_le h x
  | link hl => exact length_herase_le h x

/-- Steps at distinct addresses commute: if `y` steps first and then `x`,
the same two steps can fire in the opposite order, meeting at the same
heap. -/
theorem step_commute {h hy hyx : Heap} {x y : Nat} {ey fy ex fx : Multiset Nat}
    (hne : x ≠ y) (sy : Step h y hy ey fy) (sx : Step hy x hyx ex fx) :
    ∃ hx, Step h x hx ex fx ∧ Step hx y hyx ey fy := by
  have hyx' : y ≠ x := Ne.symm hne
  cases sy with
  | decref hly =>
    cases sx with
    | decref hlx =>
      rw [hlookup_hdecref_ne hne] at hlx
      refine ⟨hdecref h x, Step.decref hlx, ?_⟩
      have hs := Step.decref (h := hdecref h x) (x := y)
        (by rw [hlookup_hdecref_ne hyx']; exact hly)
      rwa [← hdecref_hdecref_comm hne] at hs
    | leaf hlx =>
      rw [hlookup_hdecref_ne hne] at hlx
      refine ⟨herase h x, Step.leaf hlx, ?_⟩
      have hs := Step.decref (h := herase h x) (x := y)
        (by rw [hlookup_herase_ne hyx']; exact hly)
      rw [herase_hdecref_comm hne]
      exact hs
    | link hlx =>
      rw [hlookup_hdecref_ne hne] at hlx
      refine ⟨herase h x, Step.link hlx, ?_⟩
      have hs := Step.decref (h := herase h x) (x := y)
        (by rw [hlookup_herase_ne hyx']; exact hly)
      rw [herase_hdecref_comm hne]
      exact hs
  | leaf hly =>
    cases sx with
    | decref hlx =>
      rw [hlookup_herase_ne hne] at hlx
      refine ⟨hdecref h x, Step.decref hlx, ?_⟩
      have hs := Step.leaf (h := hdecref h x) (x := y)
        (by rw [hlookup_hdecref_ne hyx']; exact hly)
      rw [← herase_hdecref_comm hyx']
      exact hs
    | leaf hlx =>
      rw [hlookup_herase_ne hne] at hlx
      refine ⟨herase h x, Step.leaf hlx, ?_⟩
      have hs := Step.leaf (h := herase h x) (x := y)
        (by rw [hlookup_herase_ne hyx']; exact hly)
      rwa [← herase_herase_comm hne] at hs
    | link hlx =>
      rw [hlookup_herase_ne hne] at hlx
      refine ⟨herase h x, Step.link hlx, ?_⟩
      have hs := Step.leaf (h := herase h x) (x := y)
        (by rw [hlookup_herase_ne hyx']; exact hly)
      rwa [← herase_herase_comm hne] at hs
  | link hly =>
    cases sx with
    | decref hlx =>
      rw [hlookup_herase_ne hne] at hlx
      refine ⟨hdecref h x, Step.decref hlx, ?_⟩
      have hs := Step.link (h := hdecref h x) (x := y)
        (by rw [hlookup_hdecref_ne hyx']; exact hly)
      rw [← herase_hdecref_comm hyx']
      exact hs
    | leaf hlx =>
      rw [hlookup_herase_ne hne] at hlx
      refine ⟨herase h x, Step.leaf hlx, ?_⟩
      have hs := Step.link (h := herase h x) (x := y)
        (by rw [hlookup_herase_ne hyx']; exact hly)
      rwa [← herase_herase_comm hne] at hs
    | link hlx =>
      rw [hlookup_herase_ne hne] at hlx
      refine ⟨herase h x, Step.link hlx, ?_⟩
      have hs := Step.link (h := herase h x) (x := y)
        (by rw [hlookup_herase_ne hyx']; exact hly)
      rwa [← herase_herase_comm hne] at hs

end Picostring.Destroy

namespace Picostring.Destroy

theorem exec_pending_zero {h h' : Heap} {f : Multiset Nat}
    (D : Exec h 0 h' f) : h' = h ∧ f = 0 := by
  cases D with
  | done => exact ⟨rfl, rfl⟩
  | step hmem hstep hrest => exact absurd hmem (by simp)

theorem exec_downward {h h' : Heap} {p f : Multiset Nat}
    (D : Exec h p h' f) (hd : downwardB h = true) : downwardB h' = true := by
  induction D with
  | done => exact hd
  | step hmem hstep hrest ih => exact ih (step_downward hstep hd)

theorem exec_keysNodup {h h' : Heap} {p f : Multiset Nat}
    (D : Exec h p h' f) (hn : KeysNodup h) : KeysNodup h' := by
  induction D with
  | done => exact hn
  | step hmem hstep hrest ih => exact ih (step_keysNodup hstep hn)

/-- Exchanging the pending lists of two scheduling orders: stepping `x` then
`y` leaves the same pending multiset as stepping `y` then `x`. -/
theorem pending_swap {p ex ey : Multiset Nat} {x y : Nat} (hx : x ∈ p) (hy : y ∈ p)
    (hne : x ≠ y) :
    (p.erase x + ex).erase y + ey = (p.erase y + ey).erase x + ex := by
  have hcx : 0 < p.count x := Multiset.count_pos.2 hx
  have hcy : 0 < p.count y := Multiset.count_pos.2 hy
  ext z
  simp only [Multiset.count_add]
  by_cases hzx : z = x
  · subst hzx
    simp only [Multiset.count_add, Multiset.count_erase_self,
      Multiset.count_erase_of_ne hne]
    omega
  · by_cases hzy : z = y
    · subst hzy
      simp only [Multiset.count_add, Multiset.count_erase_self,
        Multiset.count_erase_of_ne (Ne.symm hne)]
      omega
    · simp only [Multiset.count_add, Multiset.count_erase_of_ne hzx,
        Multiset.count_erase_of_ne hzy]
      omega

/-- Head-step freedom: a terminating execution can always be rescheduled to
discharge any chosen pending release first, with the same final heap and
the same freed multiset. -/
theorem exec_head {h h' : Heap} {p f : Multiset Nat}
    (D : Exec h p h' f) : ∀ x ∈ p, ∃ h₂ ext fr f₂,
      Step h x h₂ ext fr ∧ Exec h₂ (p.erase x + ext) h' f₂ ∧ f = fr + f₂ := by
  induction D with
  | done =>
    intro x hx
    exact absurd hx (by simp)
  | @step h y p h₂ ext fr h₃ f hmem hstep hrest ih =>
    intro x hx
    by_cases hxy : x = y
    · subst hxy
      exact ⟨h₂, ext, fr, f, hstep, hrest, rfl⟩
    · have hx₂ : x ∈ p.erase y + ext :=
        Multiset.mem_add.2 (Or.inl ((Multiset.mem_erase_of_ne hxy).2 hx))
      obtain ⟨hyx, exx, frx, f₃, sx, D₃, hf₃⟩ := ih x hx₂
      obtain ⟨hx₁, sx₁, sy₁⟩ := step_commute hxy hstep sx
      refine ⟨hx₁, exx, frx, fr + f₃, sx₁, ?_, ?_⟩
      · refine Exec.step (x := y) ?_ sy₁ ?_
        · exact Multiset.mem_add.2 (Or.inl ((Multiset.mem_erase_of_ne (Ne.symm hxy)).2 hmem))
        · rw [pending_swap hx hmem hxy]
          exact D₃
      · rw [hf₃, add_left_comm]

end Picostring.Destroy

namespace Picostring.Destroy

/-- Sequential composition of executions. -/
theorem exec_append {h h1 h2 : Heap} {p1 p2 f1 f2 : Multiset Nat}
    (D1 : Exec h p1 h1 f1) (D2 : Exec h1 p2 h2 f2) :
    Exec h (p1 + p2) h2 (f1 + f2) := by
  induction D1 with
  | done => simpa using D2
  | @step h x p h₂ ext fr h₃ f hmem hstep hrest ih =>
    have hpend : (p + p2).erase x + ext = p.erase x + ext + p2 := by
      rw [Multiset.erase_add_left_pos p2 hmem, add_right_comm]
    rw [add_assoc]
    exact Exec.step (Multiset.mem_add.2 (Or.inl hmem)) hstep (hpend ▸ ih D2)

/-- Every pending release of a terminating execution targets a live node. -/
theorem exec_lookup_some {h h' : Heap} {p f : Multiset Nat} (D : Exec h p h' f)
    {x : Nat} (hx : x ∈ p) : hlookup h x ≠ none := by
  obtain ⟨h₂, ext, fr, f₂, sx, -, -⟩ := exec_head D x hx
  cases sx with
  | decref hl => simp [hl]
  | leaf hl => simp [hl]
  | link hl => simp [hl]

/-- Frame rule: an execution whose pending releases all lie below `a` never
touches `a`, so it commutes with deleting `a`. -/
theorem exec_frame_erase {h h' : Heap} {p f : Multiset Nat} {a : Nat}
    (D : Exec h p h' f) : downwardB h = true → (∀ x ∈ p, x < a) →
    Exec (herase h a) p (herase h' a) f := by
  induction D with
  | done =>
    intro _ _
    exact Exec.done
  | @step h x p h₂ ext fr h₃ f hmem hstep hrest ih =>
    intro hd hb
    have hxa0 : x < a := hb x hmem
    have hxa : x ≠ a := Nat.ne_of_lt hxa0
    have hd₂ : downwardB h₂ = true := step_downward hstep hd
    cases hstep with
    | @decref nd c hl =>
      have hb₂ : ∀ z ∈ p.erase x + (0 : Multiset Nat), z < a := by
        intro z hz
        rw [add_zero] at hz
        exact hb z (Multiset.mem_of_mem_erase hz)
      have hl' : hlookup (herase h a) x = some (nd, c + 1) := by
        rw [hlookup_herase_ne hxa]
        exact hl
      refine Exec.step hmem (Step.decref hl') ?_
      rw [(herase_hdecref_comm (Ne.symm hxa)).symm]
      exact ih hd₂ hb₂
    | leaf hl =>
      have hb₂ : ∀ z ∈ p.erase x + (0 : Multiset Nat), z < a := by
        intro z hz
        rw [add_zero] at hz
        exact hb z (Multiset.mem_of_mem_erase hz)
      have hl' : hlookup (herase h a) x = some (HNode.leaf, 0) := by
        rw [hlookup_herase_ne hxa]
        exact hl
      refine Exec.step hmem (Step.leaf hl') ?_
      rw [(herase_herase_comm (Ne.symm hxa)).symm]
      exact ih hd₂ hb₂
    | @link l r hl =>
      have hlr := downward_lt hd hl
      have hb₂ : ∀ z ∈ p.erase x + ({l, r} : Multiset Nat), z < a := by
        intro z hz
        rcases Multiset.mem_add.1 hz with hz | hz
        · exact hb z (Multiset.mem_of_mem_erase hz)
        · rcases Multiset.mem_cons.1 hz with hz | hz
          · subst hz
            exact lt_trans hlr.1 hxa0
          · rw [Multiset.mem_singleton] at hz
            subst hz
            exact lt_trans hlr.2 hxa0
      have hl' : hlookup (herase h a) x = some (HNode.link l r, 0) := by
        rw [hlookup_herase_ne hxa]
        exact hl
      refine Exec.step hmem (Step.link hl') ?_
      rw [(herase_herase_comm (Ne.symm hxa)).symm]
      exact ih hd₂ hb₂

/-- Fully recursive destruction is one scheduling of the release events:
whenever it succeeds, the `Exec` relation holds with the same final heap and
the freed addresses as a multiset. -/
theorem releaseRec_exec : ∀ (fuel : Nat) {h : Heap} {a : Nat} {h' : Heap} {f : List Nat},
    downwardB h = true → releaseRec fuel h a = some (h', f) →
    Exec h {a} h' (↑f) := by
  intro fuel
  induction fuel with
  | zero =>
    intro h a h' f _ hrel
    simp [releaseRec] at hrel
  | succ fuel ih =>
    intro h a h' f hd hrel
    cases hla : hlookup h a with
    | none =>
      rw [releaseRec, hla] at hrel
      simp at hrel
    | some s =>
      obtain ⟨nd, c⟩ := s
      simp only [releaseRec, hla] at hrel
      by_cases hc : c = 0
      · subst hc
        rw [if_pos rfl] at hrel
        cases nd with
        | leaf =>
          have hinj := Option.some.inj hrel
          have hh1 : herase h a = h' := congrArg Prod.fst hinj
          have hh2 : [a] = f := congrArg Prod.snd hinj
          subst hh1 hh2
          have hDone : Exec (herase h a) (({a} : Multiset Nat).erase a + 0)
              (herase h a) 0 := by
            have h0 : ({a} : Multiset Nat).erase a + 0 = 0 := by
              simp [Multiset.erase_singleton]
            rw [h0]
            exact Exec.done
          have hE := Exec.step (show a ∈ ({a} : Multiset Nat) by simp)
            (Step.leaf hla) hDone
          simpa using hE
        | link l r =>
          cases hrl : releaseRec fuel h l with
          | none =>
            simp [hrl] at hrel
          | some s1 =>
            obtain ⟨h1, f1⟩ := s1
            cases hrr : releaseRec fuel h1 r with
            | none =>
              simp [hrl, hrr] at hrel
            | some s2 =>
              obtain ⟨h2, f2⟩ := s2
              simp only [hrl, hrr] at hrel
              have hinj := Option.some.inj hrel
              have hh1 : herase h2 a = h' := congrArg Prod.fst hinj
              have hh2 : f1 ++ f2 ++ [a] = f := congrArg Prod.snd hinj
              subst hh1 hh2
              have E1 : Exec h {l} h1 (↑f1) := ih hd hrl
              have hd1 : downwardB h1 = true := exec_downward E1 hd
              have E2 : Exec h1 {r} h2 (↑f2) := ih hd1 hrr
              have E12 : Exec h ({l} + {r}) h2 (↑f1 + ↑f2) := exec_append E1 E2
              have hlr := downward_lt hd hla
              have Efr : Exec (herase h a) ({l} + {r}) (herase h2 a) (↑f1 + ↑f2) := by
                refine exec_frame_erase E12 hd ?_
                intro z hz
                rcases Multiset.mem_add.1 hz with hz | hz
                · rw [Multiset.mem_singleton] at hz
                  subst hz
                  exact hlr.1
                · rw [Multiset.mem_singleton] at hz
                  subst hz
                  exact hlr.2
              have hpend : ({a} : Multiset Nat).erase a + ({l, r} : Multiset Nat) =
                  {l} + {r} := by
                rw [Multiset.erase_singleton, Multiset.singleton_add]
                simp [Multiset.insert_eq_cons]
              have hE := Exec.step (show a ∈ ({a} : Multiset Nat) by simp)
                (Step.link hla) (hpend ▸ Efr)
              have hfr : ((f1 ++ f2 ++ [a] : List Nat) : Multiset Nat) =
                  ({a} : Multiset Nat) + (↑f1 + ↑f2) := by
                have h1' : (({a} : Multiset Nat) + (↑f1 + ↑f2)) =
                    (([a] ++ (f1 ++ f2) : List Nat) : Multiset Nat) := by
                  rw [← Multiset.coe_singleton]
                  rw [← Multiset.coe_add, ← Multiset.coe_add]
                rw [h1', Multiset.coe_eq_coe]
                exact List.perm_append_comm
              rw [hfr]
              exact hE
      · rw [if_neg hc] at hrel
        have hinj := Option.some.inj hrel
        have hh1 : hdecref h a = h' := congrArg Prod.fst hinj
        have hh2 : ([] : List Nat) = f := congrArg Prod.snd hinj
        subst hh1 hh2
        obtain ⟨c', rfl⟩ : ∃ c', c = c' + 1 := ⟨c - 1, by omega⟩
        have hDone : Exec (hdecref h a) (({a} : Multiset Nat).erase a + 0)
            (hdecref h a) 0 := by
          have h0 : ({a} : Multiset Nat).erase a + 0 = 0 := by
            simp [Multiset.erase_singleton]
          rw [h0]
          exact Exec.done
        have hE := Exec.step (show a ∈ ({a} : Multiset Nat) by simp)
          (Step.decref hla) hDone
        simpa using hE

end Picostring.Destroy

namespace Picostring.Destroy

/-- A release through `_releaseMayDefer` leaves any sole-owned link entry in
place (the target itself, when sole-owned, is deferred; any other address is
untouched or is a different kind of entry). -/
theorem relMayDefer_lookup_link0 {h : Heap} {y x l2 r2 : Nat}
    (hx : hlookup h x = some (HNode.link l2 r2, 0)) :
    hlookup (relMayDefer h y).1 x = some (HNode.link l2 r2, 0) := by
  by_cases hxy : x = y
  · subst hxy
    simp [relMayDefer, hx]
  · cases hly : hlookup h y with
    | none => simp [relMayDefer, hly, hx]
    | some s =>
      obtain ⟨nd, c⟩ := s
      by_cases hc : c = 0
      · subst hc
        cases nd with
        | leaf => simp [relMayDefer, hly, hlookup_herase_ne hxy, hx]
        | link l3 r3 => simp [relMayDefer, hly, hx]
      · simp [relMayDefer, hly, hc, hlookup_hdecref_ne hxy, hx]

theorem relMayDefer_lookup_ne {h : Heap} {y x : Nat} (hxy : x ≠ y) :
    hlookup (relMayDefer h y).1 x = hlookup h x := by
  cases hly : hlookup h y with
  | none => simp [relMayDefer, hly]
  | some s =>
    obtain ⟨nd, c⟩ := s
    by_cases hc : c = 0
    · subst hc
      cases nd with
      | leaf => simp [relMayDefer, hly, hlookup_herase_ne hxy]
      | link l3 r3 => simp [relMayDefer, hly]
    · simp [relMayDefer, hly, hc, hlookup_hdecref_ne hxy]

theorem relMayDefer_downward {h : Heap} (hd : downwardB h = true) (y : Nat) :
    downwardB (relMayDefer h y).1 = true := by
  cases hly : hlookup h y with
  | none => simpa [relMayDefer, hly] using hd
  | some s =>
    obtain ⟨nd, c⟩ := s
    by_cases hc : c = 0
    · subst hc
      cases nd with
      | leaf => simp [relMayDefer, hly, downwardB_herase hd y]
      | link l3 r3 => simpa [relMayDefer, hly] using hd
    · simp [relMayDefer, hly, hc, downwardB_hdecref hd y]

theorem relMayDefer_keysNodup {h : Heap} (hn : KeysNodup h) (y : Nat) :
    KeysNodup (relMayDefer h y).1 := by
  cases hly : hlookup h y with
  | none => simpa [relMayDefer, hly] using hn
  | some s =>
    obtain ⟨nd, c⟩ := s
    by_cases hc : c = 0
    · subst hc
      cases nd with
      | leaf =>
        have := keysNodup_herase hn y
        simpa [relMayDefer, hly] using this
      | link l3 r3 => simpa [relMayDefer, hly] using hn
    · have := keysNodup_hdecref hn y
      simpa [relMayDefer, hly, hc] using this

theorem relMayDefer_length_le (h : Heap) (y : Nat) :
    (relMayDefer h y).1.length ≤ h.length := by
  cases hly : hlookup h y with
  | none => simp [relMayDefer, hly]
  | some s =>
    obtain ⟨nd, c⟩ := s
    by_cases hc : c = 0
    · subst hc
      cases nd with
      | leaf =>
        have := length_herase_le h y
        simpa [relMayDefer, hly] using this
      | link l3 r3 => simp [relMayDefer, hly]
    · have := (length_hdecref h y).le
      simpa [relMayDefer, hly, hc] using this

/-- One unfolding of the `LinkNode::destroy` loop at a non-empty stack. -/
theorem destroyI_cons (fuel : Nat) (h : Heap) (a : Nat) (rest : List Nat)
    {l r : Nat} {c : Nat} (hla : hlookup h a = some (HNode.link l r, c)) :
    destroyI (fuel + 1) h (a :: rest) =
      (destroyI fuel (herase (relMayDefer (relMayDefer h l).1 r).1 a)
        (if (relMayDefer h l).2.2 then
          (if (relMayDefer (relMayDefer h l).1 r).2.2 then r :: l :: rest
           else l :: rest)
         else (if (relMayDefer (relMayDefer h l).1 r).2.2 then r :: rest
           else rest))).map
        fun q => (q.1,
          (relMayDefer h l).2.1 ++ (relMayDefer (relMayDefer h l).1 r).2.1 ++ a :: q.2) := by
  simp only [destroyI, hla]

theorem destroyI_nil (fuel : Nat) (h : Heap) :
    destroyI fuel h [] = some (h, []) := by
  cases fuel <;> rfl

/-- A successful run of the destroy loop also succeeds with more fuel. -/
theorem destroyI_mono : ∀ {m m' : Nat} {h : Heap} {st : List Nat}
    {res : Heap × List Nat}, destroyI m h st = some res → m ≤ m' →
    destroyI m' h st = some res := by
  intro m
  induction m with
  | zero =>
    intro m' h st res hsome hle
    cases st with
    | nil =>
      rw [destroyI_nil] at hsome
      rw [destroyI_nil]
      exact hsome
    | cons a rest => simp [destroyI] at hsome
  | succ m ih =>
    intro m' h st res hsome hle
    cases st with
    | nil =>
      rw [destroyI_nil] at hsome
      rw [destroyI_nil]
      exact hsome
    | cons a rest =>
      cases m' with
      | zero => omega
      | succ m'' =>
        cases hla : hlookup h a with
        | none =>
          rw [destroyI, hla] at hsome
          simp at hsome
        | some s =>
          obtain ⟨nd, c⟩ := s
          cases nd with
          | leaf =>
            rw [destroyI, hla] at hsome
            simp at hsome
          | link l r =>
            rw [destroyI_cons m h a rest hla] at hsome
            rw [destroyI_cons m'' h a rest hla]
            simp only [Option.map_eq_some'] at hsome ⊢
            obtain ⟨q, hq, hres⟩ := hsome
            exact ⟨q, ih hq (by omega), hres⟩

end Picostring.Destroy

namespace Picostring.Destroy

/-- Multiset bookkeeping for the freed lists assembled by one loop
iteration. -/
theorem coe_assemble (u v w : List Nat) (a : Nat) :
    ((u ++ v ++ a :: w : List Nat) : Multiset Nat) =
      ({a} : Multiset Nat) + (↑u + (↑v + ↑w)) := by
  rw [← Multiset.coe_singleton, Multiset.coe_add, Multiset.coe_add,
    Multiset.coe_add, Multiset.coe_eq_coe]
  refine List.perm_middle.trans ?_
  rw [List.append_assoc]
  exact List.Perm.refl _

/-- How the execution relation mirrors one `_releaseMayDefer` call on a
child `y` while a deletion of the parent `a` is already pending in the
heap: either `y` is a sole-owned link and is deferred (no event fires), or
exactly one release event fires on `y`. -/
theorem exec_relMayDefer {hx : Heap} {a y : Nat} {P : Multiset Nat} {h' : Heap}
    {f : Multiset Nat} (hya : y ≠ a)
    (D : Exec (herase hx a) (y ::ₘ P) h' f) :
    (∃ l2 r2, hlookup hx y = some (HNode.link l2 r2, 0) ∧
        relMayDefer hx y = (hx, [], true)) ∨
    (∃ f₃, Exec (herase (relMayDefer hx y).1 a) P h' f₃ ∧
        f = ↑(relMayDefer hx y).2.1 + f₃ ∧ (relMayDefer hx y).2.2 = false) := by
  have hym : y ∈ (y ::ₘ P : Multiset Nat) := Multiset.mem_cons_self y P
  cases hly : hlookup hx y with
  | none =>
    exfalso
    refine exec_lookup_some D hym ?_
    rw [hlookup_herase_ne hya]
    exact hly
  | some s =>
    obtain ⟨nd, c⟩ := s
    have hly' : hlookup (herase hx a) y = some (nd, c) := by
      rw [hlookup_herase_ne hya]
      exact hly
    by_cases hc : c = 0
    · subst hc
      cases nd with
      | link l2 r2 =>
        exact Or.inl ⟨l2, r2, rfl, by simp [relMayDefer, hly]⟩
      | leaf =>
        obtain ⟨h₂, ext, fr, f₂, sy, D₂, hf⟩ := exec_head D y hym
        cases sy with
        | @decref nd' c' hl2 =>
          rw [hly'] at hl2
          exact absurd (congrArg (fun q => (Option.map Prod.snd q)) hl2) (by simp)
        | @link l3 r3 hl2 =>
          rw [hly'] at hl2
          have := Option.some.inj hl2
          exact absurd (congrArg Prod.fst this) (by simp)
        | leaf hl2 =>
          refine Or.inr ⟨f₂, ?_, ?_, by simp [relMayDefer, hly]⟩
          · have hpend : (y ::ₘ P).erase y + (0 : Multiset Nat) = P := by
              rw [Multiset.erase_cons_head, add_zero]
            have hheap : herase (herase hx a) y =
                herase (relMayDefer hx y).1 a := by
              rw [herase_herase_comm hya]
              simp [relMayDefer, hly]
            rw [hpend, hheap] at D₂
            exact D₂
          · rw [hf]
            simp [relMayDefer, hly]
    · obtain ⟨h₂, ext, fr, f₂, sy, D₂, hf⟩ := exec_head D y hym
      cases sy with
      | leaf hl2 =>
        rw [hly'] at hl2
        have := Option.some.inj hl2
        exact absurd (congrArg Prod.snd this) (by simpa using hc)
      | @link l3 r3 hl2 =>
        rw [hly'] at hl2
        have := Option.some.inj hl2
        exact absurd (congrArg Prod.snd this) (by simpa using hc)
      | @decref nd' c' hl2 =>
        refine Or.inr ⟨f₂, ?_, ?_, by simp [relMayDefer, hly, hc]⟩
        · have hpend : (y ::ₘ P).erase y + (0 : Multiset Nat) = P := by
            rw [Multiset.erase_cons_head, add_zero]
          have hheap : hdecref (herase hx a) y =
              herase (relMayDefer hx y).1 a := by
            rw [← herase_hdecref_comm (Ne.symm hya)]
            simp [relMayDefer, hly, hc]
          rw [hpend, hheap] at D₂
          exact D₂
        · rw [hf]
          simp [relMayDefer, hly, hc]

end Picostring.Destroy

namespace Picostring.Destroy

theorem stack_coe1 (x : Nat) (rest : List Nat) :
    (↑(x :: rest) : Multiset Nat) = ↑rest + {x} := by
  rw [← Multiset.cons_coe, add_comm, Multiset.singleton_add]

theorem stack_coe2 (l r : Nat) (rest : List Nat) :
    (↑(r :: l :: rest) : Multiset Nat) = ↑rest + {l, r} := by
  have h1 : ({l, r} : Multiset Nat) = l ::ₘ r ::ₘ 0 := rfl
  rw [h1, Multiset.add_cons, Multiset.add_cons, add_zero,
    ← Multiset.cons_coe, ← Multiset.cons_coe, Multiset.cons_swap]

/-- Completeness of the iterative destroy loop: whenever the release events
pending on a stack of sole-owned links can be discharged (`Exec`), the
deferred-stack loop succeeds with fuel one past the heap size, reaching the
same final heap and freeing the same multiset of addresses. -/
theorem exec_destroyI : ∀ (n : Nat) {h : Heap} {stack : List Nat} {h' : Heap}
    {f : Multiset Nat}, h.length ≤ n → KeysNodup h → downwardB h = true →
    (∀ x ∈ stack, ∃ lx rx, hlookup h x = some (HNode.link lx rx, 0)) →
    Exec h (↑stack) h' f →
    ∃ fl, destroyI (n + 1) h stack = some (h', fl) ∧ (↑fl : Multiset Nat) = f := by
  intro n
  induction n with
  | zero =>
    intro h stack h' f hlen hn hd hinv D
    have h0 : h = [] := List.length_eq_zero.1 (Nat.le_zero.1 hlen)
    subst h0
    cases stack with
    | nil =>
      have hD := exec_pending_zero (show Exec [] 0 h' f by simpa using D)
      refine ⟨[], ?_, ?_⟩
      · rw [destroyI_nil, hD.1]
      · rw [hD.2]
        rfl
    | cons a rest =>
      obtain ⟨lx, rx, hla⟩ := hinv a (List.mem_cons_self a rest)
      simp [hlookup] at hla
  | succ n ih =>
    intro h stack h' f hlen hn hd hinv D
    cases stack with
    | nil =>
      have hD := exec_pending_zero (show Exec h 0 h' f by simpa using D)
      refine ⟨[], ?_, ?_⟩
      · rw [destroyI_nil, hD.1]
      · rw [hD.2]
        rfl
    | cons a rest =>
      obtain ⟨l, r, hla⟩ := hinv a (List.mem_cons_self a rest)
      have hlra := downward_lt hd hla
      have hlneq : l ≠ a := Nat.ne_of_lt hlra.1
      have hrneq : r ≠ a := Nat.ne_of_lt hlra.2
      have ham : a ∈ (↑(a :: rest) : Multiset Nat) := by
        rw [← Multiset.cons_coe]
        exact Multiset.mem_cons_self a _
      obtain ⟨h₂, ext, fr, f₂, sa, D₂, hf⟩ := exec_head D a ham
      cases sa with
      | @decref nd0 c0 hl0 =>
        rw [hla] at hl0
        exact absurd (congrArg Prod.snd (Option.some.inj hl0)) (by simp)
      | leaf hl0 =>
        rw [hla] at hl0
        exact absurd (congrArg Prod.fst (Option.some.inj hl0)) (by simp)
      | @link l0 r0 hl0 =>
        rw [hla] at hl0
        have hfst := congrArg Prod.fst (Option.some.inj hl0)
        injection hfst with e1 e2
        subst e1
        subst e2
        have hpend0 : ((↑(a :: rest) : Multiset Nat)).erase a + ({l, r} : Multiset Nat)
            = ↑rest + ({l, r} : Multiset Nat) := by
          rw [← Multiset.cons_coe, Multiset.erase_cons_head]
        rw [hpend0] at D₂
        have hpendl : (↑rest + ({l, r} : Multiset Nat)) = l ::ₘ (↑rest + {r}) := by
          rw [Multiset.insert_eq_cons, Multiset.add_cons]
        have D₂l := D₂
        rw [hpendl] at D₂l
        rcases exec_relMayDefer hlneq D₂l with
          ⟨l2, r2, hlkl, hrmdl⟩ | ⟨f₃, D₃, hf₃, hflagl⟩
        · -- left child deferred
          have hpendr : (↑rest + ({l, r} : Multiset Nat)) = r ::ₘ (↑rest + {l}) := by
            rw [Multiset.pair_comm, Multiset.insert_eq_cons, Multiset.add_cons]
          have D₂r := D₂
          rw [hpendr] at D₂r
          rcases exec_relMayDefer hrneq D₂r with
            ⟨l3, r3, hlkr, hrmdr⟩ | ⟨f₄, D₄, hf₄, hflagr⟩
          · -- both children deferred: stack becomes r :: l :: rest
            have Dfin := D₂
            rw [← stack_coe2] at Dfin
            have hlkA : hlookup h a = some (HNode.link l r, 0) := hla
            have hlen3 : (herase h a).length ≤ n := by
              have h1 := length_herase_of_mem hlkA
              omega
            have hn2 : KeysNodup (herase h a) := keysNodup_herase hn a
            have hd2 : downwardB (herase h a) = true := downwardB_herase hd a
            have hinv3 : ∀ x ∈ r :: l :: rest, ∃ lx rx,
                hlookup (herase h a) x = some (HNode.link lx rx, 0) := by
              intro x hx
              rcases List.mem_cons.1 hx with hx | hx
              · subst hx
                exact ⟨l3, r3, by rw [hlookup_herase_ne hrneq]; exact hlkr⟩
              rcases List.mem_cons.1 hx with hx | hx
              · subst hx
                exact ⟨l2, r2, by rw [hlookup_herase_ne hlneq]; exact hlkl⟩
              · obtain ⟨lx, rx, hlx⟩ := hinv x (List.mem_cons_of_mem a hx)
                by_cases hxa : x = a
                · subst hxa
                  exact absurd (hlookup_herase_self hn x)
                    (exec_lookup_some Dfin (Multiset.mem_coe.2
                      (List.mem_cons_of_mem r (List.mem_cons_of_mem l hx))))
                · exact ⟨lx, rx, by rw [hlookup_herase_ne hxa]; exact hlx⟩
            obtain ⟨fl₃, hdI, hcoe⟩ := ih hlen3 hn2 hd2 hinv3 Dfin
            refine ⟨[] ++ [] ++ a :: fl₃, ?_, ?_⟩
            · rw [destroyI_cons (n + 1) h a rest hla, hrmdl]
              simp only
              rw [hrmdr]
              simp only [if_true, hdI, Option.map_some']
            · rw [coe_assemble, hf, hcoe]
              simp
          · -- left deferred, right released: stack becomes l :: rest
            have Dfin := D₄
            rw [← stack_coe1] at Dfin
            have hH1 : (relMayDefer h l).1 = h := congrArg Prod.fst hrmdl
            have hlkA : hlookup (relMayDefer h r).1 a =
                some (HNode.link l r, 0) := relMayDefer_lookup_link0 hla
            have hlen3 : (herase (relMayDefer h r).1 a).length ≤ n := by
              have h1 := length_herase_of_mem hlkA
              have h2 := relMayDefer_length_le h r
              omega
            have hn2 : KeysNodup (herase (relMayDefer h r).1 a) :=
              keysNodup_herase (relMayDefer_keysNodup hn r) a
            have hd2 : downwardB (herase (relMayDefer h r).1 a) = true :=
              downwardB_herase (relMayDefer_downward hd r) a
            have hinv3 : ∀ x ∈ l :: rest, ∃ lx rx,
                hlookup (herase (relMayDefer h r).1 a) x =
                  some (HNode.link lx rx, 0) := by
              intro x hx
              rcases List.mem_cons.1 hx with hx | hx
              · subst hx
                refine ⟨l2, r2, ?_⟩
                rw [hlookup_herase_ne hlneq]
                exact relMayDefer_lookup_link0 hlkl
              · obtain ⟨lx, rx, hlx⟩ := hinv x (List.mem_cons_of_mem a hx)
                by_cases hxa : x = a
                · subst hxa
                  exact absurd (hlookup_herase_self (relMayDefer_keysNodup hn r) x)
                    (exec_lookup_some Dfin (Multiset.mem_coe.2
                      (List.mem_cons_of_mem l hx)))
                · exact ⟨lx, rx, by
                    rw [hlookup_herase_ne hxa]
                    exact relMayDefer_lookup_link0 hlx⟩
            obtain ⟨fl₃, hdI, hcoe⟩ := ih hlen3 hn2 hd2 hinv3 Dfin
            refine ⟨[] ++ (relMayDefer h r).2.1 ++ a :: fl₃, ?_, ?_⟩
            · rw [destroyI_cons (n + 1) h a rest hla, hrmdl]
              simp only
              rw [hflagr]
              simp only [if_true, Bool.false_eq_true, if_false, hdI, Option.map_some']
            · rw [coe_assemble, hf, hf₄, hcoe]
              simp
        · -- left child released
          have hpendr1 : (↑rest + ({r} : Multiset Nat)) = r ::ₘ ↑rest := by
            rw [add_comm, Multiset.singleton_add]
          have D₃r := D₃
          rw [hpendr1] at D₃r
          rcases exec_relMayDefer hrneq D₃r with
            ⟨l3, r3, hlkr, hrmdr⟩ | ⟨f₄, D₄, hf₄, hflagr⟩
          · -- left released, right deferred: stack becomes r :: rest
            have Dfin := D₃
            rw [← stack_coe1] at Dfin
            have hlkA : hlookup (relMayDefer h l).1 a =
                some (HNode.link l r, 0) := relMayDefer_lookup_link0 hla
            have hlen3 : (herase (relMayDefer h l).1 a).length ≤ n := by
              have h1 := length_herase_of_mem hlkA
              have h2 := relMayDefer_length_le h l
              omega
            have hn2 : KeysNodup (herase (relMayDefer h l).1 a) :=
              keysNodup_herase (relMayDefer_keysNodup hn l) a
            have hd2 : downwardB (herase (relMayDefer h l).1 a) = true :=
              downwardB_herase (relMayDefer_downward hd l) a
            have hinv3 : ∀ x ∈ r :: rest, ∃ lx rx,
                hlookup (herase (relMayDefer h l).1 a) x =
                  some (HNode.link lx rx, 0) := by
              intro x hx
              rcases List.mem_cons.1 hx with hx | hx
              · subst hx
                exact ⟨l3, r3, by rw [hlookup_herase_ne hrneq]; exact hlkr⟩
              · obtain ⟨lx, rx, hlx⟩ := hinv x (List.mem_cons_of_mem a hx)
                by_cases hxa : x = a
                · subst hxa
                  exact absurd (hlookup_herase_self (relMayDefer_keysNodup hn l) x)
                    (exec_lookup_some Dfin (Multiset.mem_coe.2
                      (List.mem_cons_of_mem r hx)))
                · exact ⟨lx, rx, by
                    rw [hlookup_herase_ne hxa]
                    exact relMayDefer_lookup_link0 hlx⟩
            obtain ⟨fl₃, hdI, hcoe⟩ := ih hlen3 hn2 hd2 hinv3 Dfin
            refine ⟨(relMayDefer h l).2.1 ++ [] ++ a :: fl₃, ?_, ?_⟩
            · rw [destroyI_cons (n + 1) h a rest hla]
              simp [hflagl, hrmdr, hdI]
            · rw [coe_assemble, hf, hf₃, hcoe]
              simp
          · -- both children released: stack becomes rest
            have Dfin := D₄
            have hlkA : hlookup (relMayDefer (relMayDefer h l).1 r).1 a =
                some (HNode.link l r, 0) :=
              relMayDefer_lookup_link0 (relMayDefer_lookup_link0 hla)
            have hlen3 : (herase (relMayDefer (relMayDefer h l).1 r).1 a).length ≤ n := by
              have h1 := length_herase_of_mem hlkA
              have h2 := relMayDefer_length_le (relMayDefer h l).1 r
              have h3 := relMayDefer_length_le h l
              omega
            have hn2 : KeysNodup (herase (relMayDefer (relMayDefer h l).1 r).1 a) :=
              keysNodup_herase (relMayDefer_keysNodup (relMayDefer_keysNodup hn l) r) a
            have hd2 : downwardB (herase (relMayDefer (relMayDefer h l).1 r).1 a) = true :=
              downwardB_herase (relMayDefer_downward (relMayDefer_downward hd l) r) a
            have hinv3 : ∀ x ∈ rest, ∃ lx rx,
                hlookup (herase (relMayDefer (relMayDefer h l).1 r).1 a) x =
                  some (HNode.link lx rx, 0) := by
              intro x hx
              obtain ⟨lx, rx, hlx⟩ := hinv x (List.mem_cons_of_mem a hx)
              by_cases hxa : x = a
              · subst hxa
                exact absurd
                  (hlookup_herase_self
                    (relMayDefer_keysNodup (relMayDefer_keysNodup hn l) r) x)
                  (exec_lookup_some Dfin (Multiset.mem_coe.2 hx))
              · exact ⟨lx, rx, by
                  rw [hlookup_herase_ne hxa]
                  exact relMayDefer_lookup_link0 (relMayDefer_lookup_link0 hlx)⟩
            obtain ⟨fl₃, hdI, hcoe⟩ := ih hlen3 hn2 hd2 hinv3 Dfin
            refine ⟨(relMayDefer h l).2.1 ++
              (relMayDefer (relMayDefer h l).1 r).2.1 ++ a :: fl₃, ?_, ?_⟩
            · rw [destroyI_cons (n + 1) h a rest hla]
              simp [hflagl, hflagr, hdI]
            · rw [coe_assemble, hf, hf₃, hf₄, hcoe]

end Picostring.Destroy

/-! ### Claim theorems -/

namespace Picostring

/-- C2: for every Link node, the iterative flatten (explicit LIFO work list
seeded by pushing right then left, popping until empty, copying each Leaf's
window at the output cursor) returns a flat Leaf with offset 0 spanning a
buffer of exactly `size` units whose content is the left-to-right in-order
concatenation of all leaf windows, i.e. it equals the result of the naive
recursive flatten. -/
theorem c2_iterative_flatten_correct {α : Type} (l r : PNode α)
    (h : (PNode.link l r).wfb = true) :
    linkFlatten l r = naiveFlatten (PNode.link l r) ∧
      linkFlatten l r =
        PNode.str ((PNode.link l r).content) 0 ((PNode.link l r).size) ∧
      (leafBuf (linkFlatten l r)).length = (PNode.link l r).size := by
  refine ⟨?_, ?_, ?_⟩
  · rw [linkFlatten_eq]
    simp [naiveFlatten, PNode.content, PNode.size]
  · rw [linkFlatten_eq]
    simp [PNode.content, PNode.size]
  · have hc := PNode.content_length (PNode.link l r) h
    rw [linkFlatten_eq]
    simpa [leafBuf, PNode.content] using hc

theorem c2_iterative_flatten_correct_witness :
    (PNode.link (PNode.str ([1, 2] : List Nat) 0 2)
      (PNode.str [5, 6, 7] 1 2)).wfb = true ∧
    linkFlatten (PNode.str ([1, 2] : List Nat) 0 2) (PNode.str [5, 6, 7] 1 2) =
      naiveFlatten (PNode.link (PNode.str [1, 2] 0 2) (PNode.str [5, 6, 7] 1 2)) :=
  ⟨by decide,
   (c2_iterative_flatten_correct (PNode.str [1, 2] 0 2) (PNode.str [5, 6, 7] 1 2)
     (by decide)).1⟩

/-- C3: `at(pos)` on a Leaf indexes the raw buffer `str()[pos]` instead of
the window at `offset_ + pos`: on the root Leaf `StringNode(s = [10, 11],
offset = 1, length = 1)` — exactly what `substr(1, 1)` of the two-unit
string builds — `at(0)` returns unit 10 while the materialized content at
index 0 is unit 11. -/
theorem c3_at_ignores_offset :
    PNode.atCode (PNode.str ([10, 11] : List Nat) 1 1) 0 = some 10 ∧
      (PNode.str ([10, 11] : List Nat) 1 1).content = [11] ∧
      (PNode.str ([10, 11] : List Nat) 1 1).wfb = true ∧
      substrCode (some (PNode.str ([10, 11] : List Nat) 0 2)) 1 1 =
        some (PNode.str [10, 11] 1 1) := by
  decide

/-- C4: for every handle (including the empty handle) and `pos + len ≤
size`, the content of `substr(pos, len)` is the slice `[pos, pos + len)` of
the handle's content, and `len = 0` yields the canonical empty handle. -/
theorem c4_substr_correct {α : Type} (h : Handle α) (pos len : Nat)
    (hle : pos + len ≤ hsize h) :
    hcontent (substrCode h pos len) = ((hcontent h).drop pos).take len ∧
      (len = 0 → substrCode h pos len = none) := by
  constructor
  · by_cases hlen : len = 0
    · subst hlen
      simp [substrCode, hcontent]
    · cases h with
      | none => simp [substrCode, hlen, hcontent]
      | some t =>
        simp only [substrCode, if_neg hlen, hcontent, PNode.content]
        rw [leafBuf_nodeFlatten]
  · intro hlen
    simp [substrCode, hlen]

theorem c4_substr_correct_witness :
    1 + 2 ≤ hsize (some (PNode.str ([1, 2, 3] : List Nat) 0 3)) ∧
      hcontent (substrCode (some (PNode.str ([1, 2, 3] : List Nat) 0 3)) 1 2) =
        ((hcontent (some (PNode.str ([1, 2, 3] : List Nat) 0 3))).drop 1).take 2 :=
  ⟨by decide,
   (c4_substr_correct (some (PNode.str [1, 2, 3] 0 3)) 1 2 (by decide)).1⟩

/-- C5: append concatenates: the size of `a.append(b)` is the sum of the
sizes and its content is the concatenation of the contents, for all handles
including empty ones. -/
theorem c5_append_concat {α : Type} (a b : Handle α) :
    hsize (appendCode a b) = hsize a + hsize b ∧
      hcontent (appendCode a b) = hcontent a ++ hcontent b := by
  cases a <;> cases b <;>
    simp [appendCode, hsize, hcontent, PNode.size, PNode.content]

theorem c5_append_concat_witness :
    hsize (appendCode (some (PNode.str ([1] : List Nat) 0 1))
        (some (PNode.str [2, 3] 0 2))) =
      hsize (some (PNode.str ([1] : List Nat) 0 1)) +
        hsize (some (PNode.str ([2, 3] : List Nat) 0 2)) :=
  (c5_append_concat (some (PNode.str [1] 0 1)) (some (PNode.str [2, 3] 0 2))).1

/-- C7: `str()` is idempotent and caches: the first call on a root `t`
replaces the handle's root with `nodeFlatten t`; a second call returns
byte-identical content, leaves the root unchanged, and performs no further
flatten or copy — the cached root is a fixed point of `flatten` (the
`offset_ == 0 && s_.size() == size()` fast path returns `this`).  The model
is a pure function of the handle, so other handles sharing the
pre-flattening root are unaffected by construction. -/
theorem c7_str_idempotent_caching {α : Type} (h : Handle α) (hw : hwf h = true) :
    (strCallCode ((strCallCode h).1)).2 = (strCallCode h).2 ∧
      (strCallCode ((strCallCode h).1)).1 = (strCallCode h).1 ∧
      (∀ t, h = some t → (strCallCode h).1 = some (nodeFlatten t)) ∧
      (∀ t, (strCallCode h).1 = some t → nodeFlatten t = t) ∧
      (strCallCode h).2 = hcontent h := by
  cases h with
  | none => simp [strCallCode, hcontent]
  | some t =>
    have hwt : t.wfb = true := hw
    have hidem := nodeFlatten_idem t hwt
    refine ⟨?_, ?_, ?_, ?_, ?_⟩
    · simp [strCallCode, hidem]
    · simp [strCallCode, hidem]
    · intro t' ht'
      have : t = t' := Option.some.inj ht'
      subst this
      simp [strCallCode]
    · intro t' ht'
      have h1 : nodeFlatten t = t' := by
        simpa [strCallCode] using ht'
      rw [← h1]
      exact hidem
    · simp [strCallCode, leafBuf_nodeFlatten, hcontent]

theorem c7_str_idempotent_caching_witness :
    hwf (some (PNode.link (PNode.str ([1] : List Nat) 0 1)
        (PNode.str [2] 0 1))) = true ∧
      (strCallCode ((strCallCode (some (PNode.link (PNode.str ([1] : List Nat) 0 1)
          (PNode.str [2] 0 1)))).1)).2 =
        (strCallCode (some (PNode.link (PNode.str ([1] : List Nat) 0 1)
          (PNode.str [2] 0 1)))).2 :=
  ⟨by decide,
   (c7_str_idempotent_caching
     (some (PNode.link (PNode.str [1] 0 1) (PNode.str [2] 0 1))) (by decide)).1⟩

/-- C8: the empty handle is a two-sided identity for append, returning the
other operand itself (the same root is shared; no node is allocated),
including when both operands are empty. -/
theorem c8_append_empty_identity {α : Type} (a b : Handle α) :
    (a = none → appendCode a b = b) ∧ (b = none → appendCode a b = a) ∧
      appendCode (none : Handle α) (none : Handle α) = none := by
  refine ⟨?_, ?_, rfl⟩
  · intro ha
    subst ha
    rfl
  · intro hb
    subst hb
    cases a <;> rfl

theorem c8_append_empty_identity_witness :
    appendCode (none : Handle Nat) (some (PNode.str [1] 0 1)) =
        some (PNode.str [1] 0 1) ∧
      appendCode (some (PNode.str ([1] : List Nat) 0 1)) none =
        some (PNode.str [1] 0 1) :=
  ⟨(c8_append_empty_identity none (some (PNode.str [1] 0 1))).1 rfl,
   (c8_append_empty_identity (some (PNode.str [1] 0 1)) none).2.1 rfl⟩

/-- C9: `append(const char_type*, size_type)` handles `length == 0` (returns
the handle unchanged) and an empty handle (fresh Leaf over the raw buffer),
but the branch for a non-empty handle and a non-empty buffer — the case the
claim describes as concatenation — is the ill-formed
`return picostirng(s->append(s, length));` (misspelled type name; `append`
called through the raw pointer `s`, which shadows the member `s_`), modelled
as `none`. -/
theorem c9_append_raw_ill_formed_branch :
    appendRawCode (some (PNode.str ([1] : List Nat) 0 1)) [2] = none ∧
      appendRawCode (none : Handle Nat) [2] = some (some (PNode.str [2] 0 1)) ∧
      appendRawCode (some (PNode.str ([1] : List Nat) 0 1)) [] =
        some (some (PNode.str [1] 0 1)) := by
  decide

/-- C10: the copy constructor `s_(s.s_->retain())` dereferences the source
root unconditionally, so copy construction is well-defined exactly when the
source handle is non-empty; copying the empty handle — e.g. the value
`append` returns when both operands are empty — is a null-pointer
dereference (`none` in the model). -/
theorem c10_copy_ctor_requires_nonempty {α : Type} (h : Handle α) :
    ((copyCtorCode h).isSome ↔ h.isSome) ∧
      copyCtorCode (appendCode (none : Handle α) (none : Handle α)) = none := by
  constructor
  · cases h <;> simp [copyCtorCode]
  · rfl

end Picostring

namespace Picostring.Rc

/-- C6: the biased reference-count protocol of `Node`.  A fresh node stores
`refcnt_ = 0`, representing exactly one owner; `retain()` increments;
`release()` destroys exactly when the count is at the initial one-owner
value and otherwise only decrements.  Hence across any sequence of retains
and releases: the node stays alive with stored count `retains − releases`
exactly while every prefix has `releases ≤ retains`, and it is destroyed
exactly when some release arrives with the count back at the one-owner
state (`releases = retains` so far) — the release matching its last
owner. -/
theorem c6_refcount_protocol (ops : List RcOp) :
    (∀ c, rcRun ops = some c ↔
      ((∀ n, releases (ops.take n) ≤ retains (ops.take n)) ∧
        c + releases ops = retains ops)) ∧
    (rcRun ops = none ↔
      ∃ p q, ops = p ++ RcOp.release :: q ∧ rcRun p = some 0) := by
  constructor
  · intro c
    have hs := rcFold_some_iff ops 0 c
    simpa [rcRun] using hs
  · have hn := rcFold_none_iff ops 0
    simpa [rcRun] using hn

theorem c6_refcount_protocol_witness :
    rcRun [RcOp.retain, RcOp.release, RcOp.release] = none ∧
      rcRun [RcOp.retain, RcOp.release] = some 0 :=
  ⟨((c6_refcount_protocol [RcOp.retain, RcOp.release, RcOp.release]).2).2
      ⟨[RcOp.retain, RcOp.release], [], rfl, by decide⟩,
   by decide⟩

end Picostring.Rc

namespace Picostring.Destroy

/-- C1 (amended): for every Link node whose owner-count reaches zero — on a
heap with unique addresses whose links point to strictly smaller addresses
— whenever fully recursive destruction terminates, the iterative
deferred-stack destroy succeeds with fuel one past the heap size, produces
exactly the same final heap (so every node with zero remaining owners is
freed and shared nodes are only decremented, identically on both sides),
and frees exactly the same multiset of nodes; the deletion order differs: a
deferred sole-owned Link child is deleted after its parent, so freeing is
not leaves-upward (see the counterexample). -/
theorem c1_iterative_destroy_matches_recursive {h : Heap} {a : Nat}
    {fuelR : Nat} {h' : Heap} {ford : List Nat}
    (hn : KeysNodup h) (hd : downwardB h = true)
    (hl : ∃ l r, hlookup h a = some (HNode.link l r, 0))
    (hrec : releaseRec fuelR h a = some (h', ford)) :
    ∃ fl, destroyI (h.length + 1) h [a] = some (h', fl) ∧ fl.Perm ford := by
  obtain ⟨l, r, hla⟩ := hl
  have hE : Exec h {a} h' (↑ford) := releaseRec_exec fuelR hd hrec
  have hE' : Exec h (↑[a]) h' (↑ford) := by
    rw [Multiset.coe_singleton]
    exact hE
  have hinv : ∀ x ∈ [a], ∃ lx rx, hlookup h x = some (HNode.link lx rx, 0) := by
    intro x hx
    rw [List.mem_singleton] at hx
    subst hx
    exact ⟨l, r, hla⟩
  obtain ⟨fl, hdI, hcoe⟩ := exec_destroyI h.length le_rfl hn hd hinv hE'
  exact ⟨fl, hdI, Multiset.coe_eq_coe.1 hcoe⟩

theorem c1_iterative_destroy_matches_recursive_witness :
    ∃ fl, destroyI (cHeap.length + 1) cHeap [4] = some ([], fl) ∧
      fl.Perm [0, 1, 2, 3, 4] :=
  @c1_iterative_destroy_matches_recursive cHeap 4 6 [] [0, 1, 2, 3, 4]
    (by decide) (by decide) ⟨2, 3, by decide⟩ (by decide)

/-- C1 counterexample to the claim as stated: on the concrete sole-owned
heap `cHeap` (`A = link(L, R)` with `L` a sole-owned link), the iterative
destroy frees `[R, A, L1, L2, L]` — the parent `A` is deleted before its
deferred child `L` and before the leaves `L1, L2` of `L`'s subtree — so
"freeing happens from the leaves upward" is false for the iterative
algorithm, while it does hold for the recursive order `[L1, L2, L, R, A]`;
the freed sets and the final (empty) heap agree. -/
theorem c1_not_leaves_upward :
    destroyI 6 cHeap [4] = some ([], [3, 4, 0, 1, 2]) ∧
      leavesUpwardB cHeap [3, 4, 0, 1, 2] = false ∧
      releaseRec 6 cHeap 4 = some ([], [0, 1, 2, 3, 4]) ∧
      leavesUpwardB cHeap [0, 1, 2, 3, 4] = true ∧
      downwardB cHeap = true ∧ KeysNodup cHeap := by
  decide

end Picostring.Destroy
